import Mathlib

/-!
Verification of the doublegit snapshot/retention engine.

This file gives a shallow embedding of the core of `src/git/mod.rs`
(`update_with_date`, the ledger update protocol and the keeper-reference
retention planner) and of the configuration dispatch in `src/apis/mod.rs`,
and proves or refutes the specification claims about them.

Modelling conventions:

* Timestamps: the source formats a UTC datetime as `%Y-%m-%d %H:%M:%S` and
  SQLite compares the resulting TEXT values with binary (lexicographic)
  collation; that format is order-isomorphic to the underlying time axis,
  so timestamps are modelled as `Nat` and `ORDER BY from_date DESC` as the
  `Nat` order.
* The `git` submodule (the version-control backend: `fetch`, `get_sha`,
  `is_annotated_tag`, `make_ref`, `make_branch`, `included_branches`,
  `including_branches`, `delete_branch`) is not part of the repository
  sources available under `src/`; the spec treats it as an external
  Backend Capability (spec section 6).  Those operations are modelled from
  the spec against an explicit `GitState`.
* The SQLite ledger statements are modelled as pure list transformations;
  the transaction is modelled by returning the pre-run ledger whenever the
  run aborts before the final `tx.commit()`.
* `UPDATE ... ORDER BY from_date DESC LIMIT 1` updates one row with the
  greatest `from_date` among the rows matching the name; which row is
  chosen on ties is unspecified in SQLite, and the model fixes the
  first-positioned such row.
-/

namespace Doublegit

/-- A reference, either tag or branch (`struct Ref` in `src/git/mod.rs`). -/
structure Ref where
  name : String
  tag : Bool
deriving DecidableEq, Repr

/-- Full reference name, `origin/branch` for a branch or the bare name for a
tag (`Ref::fullname`). -/
def Ref.fullname (r : Ref) : String :=
  if r.tag then r.name else "origin/" ++ r.name

/-- Result of one fetch: the classification of remote references into new,
changed and removed (`git::fetch`'s output, spec section 4.1). -/
structure RefDiff where
  new : List Ref
  changed : List Ref
  removed : List Ref
deriving DecidableEq, Repr

/-- One row of the `refs` ledger table: columns `name`, `from_date`,
`to_date` (nullable), `sha`, `tag`. -/
structure Row where
  name : String
  from_date : Nat
  to_date : Option Nat
  sha : String
  tag : Bool
deriving DecidableEq, Repr

/-- Failures a run can surface (`crate::Error` as far as the core uses it):
a failed fetch, a failed name resolution (`git::get_sha`), or a failed
backend mutation. -/
inductive Err where
  | fetchFailed
  | resolveFailed
  | deleteFailed
deriving DecidableEq, Repr

/-- State of the version-control backend store.

Modelled from the spec: the backend (the missing `git` submodule) is the
external Backend Capability of spec section 6.  `resolve` maps a full
reference name to a commit id, `isAnn` reports whether a commit id denotes
an annotated tag object, `ancestor a b` is the commit-DAG predicate "a is
an ancestor of b", `branches` and `tagRefs` are the existing branch-style
and tag-style references (name paired with tip commit id), and `deleteOk`
says whether deleting a given branch succeeds (backend mutations may fail,
spec section 7). -/
structure GitState where
  resolve : String → Option String
  isAnn : String → Bool
  ancestor : String → String → Bool
  deleteOk : String → Bool
  branches : List (String × String)
  tagRefs : List (String × String)

/-- Modelled from the spec: `git::get_sha`, resolving a full reference name
to a commit id; a name the backend cannot resolve is a backend failure. -/
def get_sha (g : GitState) (fullname : String) : Except Err String :=
  match g.resolve fullname with
  | some sha => .ok sha
  | none => .error .resolveFailed

/-- Modelled from the spec: `git::is_annotated_tag`, a pure query of the
object store. -/
def is_annotated_tag (g : GitState) (sha : String) : Bool :=
  g.isAnn sha

/-- Modelled from the spec: `git::make_branch`; keeper creation is
idempotent, attempting to create an already-existing keeper is a no-op
(spec section 4.3). -/
def make_branch (g : GitState) (name sha : String) : GitState :=
  if g.branches.any (fun b => b.1 == name) then g
  else { g with branches := g.branches ++ [(name, sha)] }

/-- Modelled from the spec: `git::make_ref`, creating a tag-style keeper;
idempotent like `make_branch`. -/
def make_ref (g : GitState) (name sha : String) : GitState :=
  if g.tagRefs.any (fun t => t.1 == name) then g
  else { g with tagRefs := g.tagRefs ++ [(name, sha)] }

/-- Modelled from the spec: `git::included_branches`, the branches whose tip
is an ancestor of the given commit id (spec section 6). -/
def included_branches (g : GitState) (sha : String) : List String :=
  (g.branches.filter (fun b => g.ancestor b.2 sha)).map Prod.fst

/-- Modelled from the spec: `git::including_branches`, the branches that
contain the given commit id as an ancestor of their tip (spec section 6). -/
def including_branches (g : GitState) (sha : String) : List String :=
  (g.branches.filter (fun b => g.ancestor sha b.2)).map Prod.fst

/-- Modelled from the spec: `git::delete_branch`; a backend mutation that
can fail (spec section 7), controlled by `deleteOk`. -/
def delete_branch (g : GitState) (name : String) : Except Err GitState :=
  if g.deleteOk name then
    .ok { g with branches := g.branches.filter (fun b => b.1 != name) }
  else .error .deleteFailed

/-- Greatest `from_date` among the rows whose `name` matches, `none` when no
row matches (the `ORDER BY from_date DESC LIMIT 1` selection). -/
def maxFrom (nm : String) : List Row → Option Nat
  | [] => none
  | r :: rest =>
    let m := maxFrom nm rest
    if r.name = nm then
      some (match m with
            | none => r.from_date
            | some m2 => if m2 < r.from_date then r.from_date else m2)
    else m

/-- Set `to_date` on the first row whose `name` matches and whose
`from_date` equals the given maximum. -/
def setFirstMax (d : Nat) (nm : String) (m : Nat) : List Row → List Row
  | [] => []
  | r :: rest =>
    if r.name = nm ∧ r.from_date = m then { r with to_date := some d } :: rest
    else r :: setFirstMax d nm m rest

/-- One execution of the close statement
`UPDATE refs SET to_date=? WHERE name=? ORDER BY from_date DESC LIMIT 1`:
among the rows with the given name, the one with the greatest `from_date`
gets `to_date` set — unconditionally, open or not; zero matching rows is
not an error. -/
def closeOne (d : Nat) (nm : String) (ledger : List Row) : List Row :=
  match maxFrom nm ledger with
  | none => ledger
  | some m => setFirstMax d nm m ledger

/-- The close loop of `update_with_date`: the update statement executed for
every reference in `removed` then `changed`. -/
def closeRows (d : Nat) : List Ref → List Row → List Row
  | [], ledger => ledger
  | r :: rest, ledger => closeRows d rest (closeOne d r.name ledger)

/-- The open loop of `update_with_date`: for every reference in `changed`
then `new`, resolve its commit id and insert a fresh open row
`(name, d, NULL, sha, tag)`. -/
def openRows (g : GitState) (d : Nat) : List Ref → List Row → Except Err (List Row)
  | [], ledger => .ok ledger
  | r :: rest, ledger =>
    match get_sha g r.fullname with
    | .error e => .error e
    | .ok sha => openRows g d rest (ledger ++ [⟨r.name, d, none, sha, r.tag⟩])

/-- Branch-style keeper name for a commit id (`format!("keep-{}", sha)`). -/
def keeperName (sha : String) : String := "keep-" ++ sha

/-- Tag-style keeper name for a commit id
(`format!("refs/kept-tags/tag-{}", sha)`). -/
def tagKeeperName (sha : String) : String := "refs/kept-tags/tag-" ++ sha

/-- Keeper synthesis for one frontier reference (the body of the
"Create refs to prevent garbage collection" loop): an annotated tag gets a
tag-style keeper, everything else a branch-style keeper. -/
def pass1Step (g : GitState) (r : Ref) (sha : String) : GitState :=
  if r.tag && is_annotated_tag g sha then make_ref g (tagKeeperName sha) sha
  else make_branch g (keeperName sha) sha

/-- Pass 1 of the retention planner: keeper synthesis over the frontier
(`changed` then `new`). -/
def pass1 (g : GitState) : List Ref → GitState × Except Err Unit
  | [] => (g, .ok ())
  | r :: rest =>
    match get_sha g r.fullname with
    | .error e => (g, .error e)
    | .ok sha => pass1 (pass1Step g r sha) rest

/-- The descendant-collapsing loop of pass 2: delete every branch returned
by the `included_branches` query except the frontier commit's own keeper,
aborting on the first failed deletion. -/
def deleteLoop (keeper : String) : List String → GitState → GitState × Except Err Unit
  | [], g => (g, .ok ())
  | br :: rest, g =>
    if br = keeper then deleteLoop keeper rest g
    else
      match delete_branch g br with
      | .error e => (g, .error e)
      | .ok g1 => deleteLoop keeper rest g1

/-- Pass 2 body for one frontier reference: descendant collapsing, then —
unless the reference is an annotated tag — the self-redundancy check that
deletes the reference's own keeper when more than one existing branch
includes its commit. -/
def pass2Step (g : GitState) (r : Ref) (sha : String) : GitState × Except Err Unit :=
  match deleteLoop (keeperName sha) (included_branches g sha) g with
  | (g1, .error e) => (g1, .error e)
  | (g1, .ok _) =>
    if (r.tag && is_annotated_tag g1 sha) = false ∧ 1 < (including_branches g1 sha).length then
      match delete_branch g1 (keeperName sha) with
      | .error e => (g1, .error e)
      | .ok g2 => (g2, .ok ())
    else (g1, .ok ())

/-- Pass 2 of the retention planner: subsumption pruning over the frontier
(`changed` then `new`). -/
def pass2 (g : GitState) : List Ref → GitState × Except Err Unit
  | [] => (g, .ok ())
  | r :: rest =>
    match get_sha g r.fullname with
    | .error e => (g, .error e)
    | .ok sha =>
      match pass2Step g r sha with
      | (g1, .ok _) => pass2 g1 rest
      | (g1, .error e) => (g1, .error e)

/-- One run of `update_with_date` (`src/git/mod.rs`): open the transaction,
fetch, close rows for `removed ++ changed`, open rows for `changed ++ new`,
run keeper synthesis then subsumption pruning against the backend, commit.
The result is the run's outcome, the committed ledger (the pre-run ledger
whenever the run aborts before `tx.commit()`, since the transaction is then
discarded), and the backend state reached (backend mutations are outside
the transaction and persist on failure). -/
def update_with_date (ledger0 : List Row) (g0 : GitState) (d : Nat)
    (fetched : Except Err RefDiff) : Except Err Unit × List Row × GitState :=
  match fetched with
  | .error e => (.error e, ledger0, g0)
  | .ok out =>
    let l1 := closeRows d (out.removed ++ out.changed) ledger0
    match openRows g0 d (out.changed ++ out.new) l1 with
    | .error e => (.error e, ledger0, g0)
    | .ok l2 =>
      match pass1 g0 (out.changed ++ out.new) with
      | (g1, .error e) => (.error e, ledger0, g1)
      | (g1, .ok _) =>
        match pass2 g1 (out.changed ++ out.new) with
        | (g2, .error e) => (.error e, ledger0, g2)
        | (g2, .ok _) => (.ok (), l2, g2)

/-- An observed remote snapshot: the set of remote references (with kind)
paired with the commit id each one resolves to. -/
abbrev Observed := List (Ref × String)

/-- Names of the references in an observed snapshot. -/
def namesOf (s : Observed) : List String :=
  s.map (fun p => p.1.name)

/-- Modelled from the spec: the classification performed by the missing
`git::fetch` (spec section 4.1) — given the previously recorded reference
set and the freshly fetched one, `new` are the references (by name+kind
identity) not previously observed, `changed` those observed with a
different commit id, `removed` those no longer present. -/
def diffOf (prev cur : Observed) : RefDiff where
  new := (cur.filter (fun p => !(prev.any (fun q => decide (q.1 = p.1))))).map Prod.fst
  changed := (cur.filter (fun p => prev.any (fun q => decide (q.1 = p.1 ∧ q.2 ≠ p.2)))).map Prod.fst
  removed := (prev.filter (fun q => !(cur.any (fun p => decide (p.1 = q.1))))).map Prod.fst

/-- Backend state corresponding to an observed snapshot, as far as the
ledger protocol is concerned: `resolve` answers from the snapshot, and the
branch store starts empty with an empty ancestry relation (the retention
passes do not touch the ledger, so their backend inputs are inert here). -/
def mkGit (cur : Observed) : GitState where
  resolve := fun fn => (cur.find? (fun p => decide (p.1.fullname = fn))).map Prod.snd
  isAnn := fun _ => false
  ancestor := fun _ _ => false
  deleteOk := fun _ => true
  branches := []
  tagRefs := []

/-- A sequence of runs of `update_with_date`, each run fetching a new
observed snapshot at a given timestamp; returns the committed ledger after
the last run. -/
def runSeq : Observed → List Row → List (Observed × Nat) → List Row
  | _, ledger, [] => ledger
  | prev, ledger, (cur, d) :: rest =>
    runSeq cur (update_with_date ledger (mkGit cur) d (.ok (diffOf prev cur))).2.1 rest

/-- Number of open rows (absent `to_date`) for a name in the ledger. -/
def openCount (nm : String) (ledger : List Row) : Nat :=
  (ledger.filter (fun r => decide (r.name = nm ∧ r.to_date = none))).length

/-- Backend state for a concrete mid-run failure scenario: every name
resolves to commit `s2`, every branch deletion fails, one pre-existing
branch `old` exists, and the ancestry relation is total (so pass 2 tries,
and fails, to delete `old`). -/
def gFail : GitState where
  resolve := fun _ => some "s2"
  isAnn := fun _ => false
  ancestor := fun _ _ => true
  deleteOk := fun _ => false
  branches := [("old", "s0")]
  tagRefs := []

/-- Every open row of the ledger strictly dominates, by `from_date`, every
other row carrying the same name (so the `ORDER BY from_date DESC LIMIT 1`
selection can only pick the open row). -/
def strictLatest (ledger : List Row) : Prop :=
  ∀ r ∈ ledger, r.to_date = none →
    ∀ r2 ∈ ledger, r2.name = r.name → r2 ≠ r → r2.from_date < r.from_date

/-- A JSON value (`serde_json::Value`; numbers abstracted as integers,
which the configuration dispatch never inspects). -/
inductive Json where
  | null
  | bool (b : Bool)
  | num (n : Int)
  | str (s : String)
  | arr (xs : List Json)
  | obj (fields : List (String × Json))

/-- Errors surfaced by `apis::update_with_date` (`crate::Error` as used
there): an I/O failure opening the configuration file, or a typed
configuration error with its message. -/
inductive ApiError where
  | io
  | config (msg : String)
deriving DecidableEq, Repr

/-- Outcome of `apis::update_with_date`: normal return, a surfaced error,
or a process abort through a failed `assert!`. -/
inductive ApiResult where
  | ok
  | err (e : ApiError)
  | panicked
deriving DecidableEq, Repr

/-- `serde_json::Map::remove`: remove the entry for a key from an object,
returning the removed value and the remaining fields. -/
def removeKey (k : String) : List (String × Json) → Option (Json × List (String × Json))
  | [] => none
  | (k1, v) :: rest =>
    if k1 = k then some (v, rest)
    else
      match removeKey k rest with
      | none => none
      | some (v1, rest1) => some (v1, (k1, v) :: rest1)

namespace Apis

/-- `apis::update_with_date` (`src/apis/mod.rs`): skip when the
per-directory configuration file `doublegit.json` does not exist; surface
an I/O error when it cannot be opened; surface a typed configuration error
when it does not parse, is not an object, or has no string key `type`;
abort through `assert!(type_name == "github")` when the type is any other
string; otherwise load the handler configuration (the `github` module is
absent from the sources, so its deserialization is an abstract parameter).
`canOpen` models whether `File::open` succeeds and `parsed` the result of
`serde_json::from_reader`. -/
def update_with_date (configExists : Bool) (canOpen : Bool)
    (parsed : Except String Json)
    (parseGithub : List (String × Json) → Except String Unit) : ApiResult :=
  if !configExists then .ok
  else if !canOpen then .err .io
  else
    match parsed with
    | .error e => .err (.config ("Error reading config: " ++ e))
    | .ok config =>
      match config with
      | .obj fields =>
        match removeKey "type" fields with
        | some (.str s, rest) =>
          if s = "github" then
            match parseGithub rest with
            | .error e => .err (.config ("Invalid " ++ s ++ " config: " ++ e))
            | .ok _ => .ok
          else .panicked
        | _ => .err (.config "Config does not contain a key \"type\"")
      | _ => .err (.config "Config is not an object")

end Apis

/-! ### Lemmas about the close statement -/

theorem maxFrom_eq_none (nm : String) (l : List Row) (h : ∀ r ∈ l, r.name ≠ nm) :
    maxFrom nm l = none := by
  induction l with
  | nil => rfl
  | cons r rest ih =>
    simp only [maxFrom]
    rw [if_neg (h r (List.mem_cons_self r rest))]
    exact ih fun x hx => h x (List.mem_cons_of_mem r hx)

theorem maxFrom_le (nm : String) (l : List Row) (r : Row) (hr : r ∈ l)
    (hname : r.name = nm) : ∃ m, maxFrom nm l = some m ∧ r.from_date ≤ m := by
  induction l with
  | nil => cases hr
  | cons r0 rest ih =>
    rcases List.mem_cons.mp hr with rfl | hmem
    · refine ⟨_, by simp only [maxFrom]; rw [if_pos hname], ?_⟩
      cases hrest : maxFrom nm rest with
      | none => simp
      | some m2 =>
        simp only
        split
        · exact le_refl _
        · omega
    · obtain ⟨m2, hm2, hle⟩ := ih hmem
      by_cases h0 : r0.name = nm
      · refine ⟨_, by simp only [maxFrom]; rw [if_pos h0], ?_⟩
        rw [hm2]
        simp only
        split
        · omega
        · exact hle
      · exact ⟨m2, by simp only [maxFrom]; rw [if_neg h0]; exact hm2, hle⟩

theorem maxFrom_some_mem (nm : String) (l : List Row) (m : Nat)
    (h : maxFrom nm l = some m) : ∃ r ∈ l, r.name = nm ∧ r.from_date = m := by
  induction l with
  | nil => cases h
  | cons r0 rest ih =>
    simp only [maxFrom] at h
    by_cases h0 : r0.name = nm
    · rw [if_pos h0] at h
      cases hrest : maxFrom nm rest with
      | none =>
        rw [hrest] at h
        simp only at h
        exact ⟨r0, List.mem_cons_self r0 rest, h0, Option.some.inj h⟩
      | some m2 =>
        rw [hrest] at h
        simp only at h
        have hm := Option.some.inj h
        by_cases hlt : m2 < r0.from_date
        · rw [if_pos hlt] at hm
          exact ⟨r0, List.mem_cons_self r0 rest, h0, hm⟩
        · rw [if_neg hlt] at hm
          obtain ⟨r, hr, hrn, hrd⟩ := ih (hm ▸ hrest)
          exact ⟨r, List.mem_cons_of_mem r0 hr, hrn, hrd⟩
    · rw [if_neg h0] at h
      obtain ⟨r, hr, hrn, hrd⟩ := ih h
      exact ⟨r, List.mem_cons_of_mem r0 hr, hrn, hrd⟩

theorem maxFrom_strictMax (nm : String) (l1 l2 : List Row) (s : Row)
    (hname : s.name = nm)
    (hmax : ∀ r ∈ l1 ++ l2, r.name = nm → r.from_date < s.from_date) :
    maxFrom nm (l1 ++ s :: l2) = some s.from_date := by
  obtain ⟨m, hm, hle⟩ := maxFrom_le nm (l1 ++ s :: l2) s (by simp) hname
  obtain ⟨r, hrmem, hrname, hrdate⟩ := maxFrom_some_mem nm _ m hm
  rcases List.mem_append.mp hrmem with h1 | h2
  · have := hmax r (List.mem_append_left l2 h1) hrname
    omega
  · rcases List.mem_cons.mp h2 with rfl | h3
    · rw [hm, hrdate]
    · have := hmax r (List.mem_append_right l1 h3) hrname
      omega

theorem setFirstMax_strictMax (d : Nat) (nm : String) (l1 l2 : List Row) (s : Row)
    (hname : s.name = nm)
    (hless : ∀ r ∈ l1, r.name = nm → r.from_date < s.from_date) :
    setFirstMax d nm s.from_date (l1 ++ s :: l2) =
      l1 ++ { s with to_date := some d } :: l2 := by
  induction l1 with
  | nil => simp [setFirstMax, hname]
  | cons r0 rest ih =>
    have hcond : ¬(r0.name = nm ∧ r0.from_date = s.from_date) := by
      rintro ⟨h1, h2⟩
      have := hless r0 (List.mem_cons_self r0 rest) h1
      omega
    simp only [List.cons_append, setFirstMax]
    rw [if_neg hcond]
    exact congrArg (List.cons r0) (ih fun r hr => hless r (List.mem_cons_of_mem r0 hr))

theorem closeOne_strictMax (d : Nat) (nm : String) (l1 l2 : List Row) (s : Row)
    (hname : s.name = nm)
    (hmax : ∀ r ∈ l1 ++ l2, r.name = nm → r.from_date < s.from_date) :
    closeOne d nm (l1 ++ s :: l2) = l1 ++ { s with to_date := some d } :: l2 := by
  unfold closeOne
  rw [maxFrom_strictMax nm l1 l2 s hname hmax]
  exact setFirstMax_strictMax d nm l1 l2 s hname
    fun r hr => hmax r (List.mem_append_left l2 hr)

theorem setFirstMax_mem (d : Nat) (nm : String) (m : Nat) (l : List Row) (row : Row)
    (h : row ∈ setFirstMax d nm m l) : row ∈ l ∨ row.to_date = some d := by
  induction l with
  | nil => cases h
  | cons r0 rest ih =>
    simp only [setFirstMax] at h
    split at h
    · rcases List.mem_cons.mp h with rfl | hmem
      · exact Or.inr rfl
      · exact Or.inl (List.mem_cons_of_mem r0 hmem)
    · rcases List.mem_cons.mp h with rfl | hmem
      · exact Or.inl (List.mem_cons_self _ _)
      · rcases ih hmem with h1 | h1
        · exact Or.inl (List.mem_cons_of_mem r0 h1)
        · exact Or.inr h1

theorem closeOne_mem (d : Nat) (nm : String) (l : List Row) (row : Row)
    (h : row ∈ closeOne d nm l) : row ∈ l ∨ row.to_date = some d := by
  unfold closeOne at h
  cases hm : maxFrom nm l with
  | none => rw [hm] at h; exact Or.inl h
  | some m => rw [hm] at h; exact setFirstMax_mem d nm m l row h

theorem closeRows_mem (d : Nat) (names : List Ref) (ledger : List Row) (row : Row)
    (h : row ∈ closeRows d names ledger) : row ∈ ledger ∨ row.to_date = some d := by
  induction names generalizing ledger with
  | nil => exact Or.inl h
  | cons r rest ih =>
    rcases ih (closeOne d r.name ledger) h with h1 | h1
    · exact closeOne_mem d r.name ledger row h1
    · exact Or.inr h1

theorem openRows_mem (g : GitState) (d : Nat) (refs : List Ref)
    (ledger l2 : List Row) (row : Row) (h : openRows g d refs ledger = .ok l2)
    (hrow : row ∈ l2) : row ∈ ledger ∨ (row.from_date = d ∧ row.to_date = none) := by
  induction refs generalizing ledger with
  | nil =>
    simp only [openRows] at h
    exact Or.inl ((Except.ok.inj h) ▸ hrow)
  | cons r rest ih =>
    simp only [openRows, get_sha] at h
    cases hres : g.resolve r.fullname with
    | none => rw [hres] at h; cases h
    | some sha =>
      rw [hres] at h
      rcases ih (ledger ++ [⟨r.name, d, none, sha, r.tag⟩]) h with h1 | h1
      · rcases List.mem_append.mp h1 with h2 | h2
        · exact Or.inl h2
        · rcases List.mem_singleton.mp h2 with rfl
          exact Or.inr ⟨rfl, rfl⟩
      · exact Or.inr h1

/-! ### Claims about the ledger protocol (C3, C4, C6) -/

/-- C3 (counterexample): the claim says that a name in `removed ∪ changed`
with no open ledger row makes the close operation fail with a surfaced
error.  It does not: here the name `a` is in `removed` with an empty
ledger, and the run completes with `Ok` and an unchanged ledger — the
`UPDATE` simply matches zero rows and `execute` reports success. -/
theorem claim3_counterexample :
    (update_with_date [] (mkGit []) 5 (.ok ⟨[], [], [⟨"a", false⟩]⟩)).1 = .ok ()
    ∧ (update_with_date [] (mkGit []) 5 (.ok ⟨[], [], [⟨"a", false⟩]⟩)).2.1 = [] :=
  ⟨rfl, rfl⟩

/-- C3 (amended): for a name with no ledger row, the close statement is a
silent no-op — it matches zero rows, surfaces no error, and leaves the
ledger unchanged. -/
theorem claim3_amended (d : Nat) (nm : String) (ledger : List Row)
    (h : ∀ r ∈ ledger, r.name ≠ nm) : closeOne d nm ledger = ledger := by
  unfold closeOne
  rw [maxFrom_eq_none nm ledger h]

/-- Witness instantiating C3's amended theorem at a concrete ledger. -/
theorem claim3_witness :
    closeOne 7 "a" [⟨"b", 1, none, "s", false⟩] = [⟨"b", 1, none, "s", false⟩] :=
  claim3_amended 7 "a" [⟨"b", 1, none, "s", false⟩] (by decide)

/-- C4 (counterexample): the claim says a row whose `to_date` is already
set is never modified by any run.  Here the only row for `a` is closed
(`to_date = some 2`), `a` is in `removed`, and the run overwrites the
closed row's `to_date` with the new timestamp — the `UPDATE` has no
openness condition. -/
theorem claim4_counterexample :
    (update_with_date [⟨"a", 1, some 2, "s1", false⟩] (mkGit []) 3
        (.ok ⟨[], [], [⟨"a", false⟩]⟩)).2.1 = [⟨"a", 1, some 3, "s1", false⟩]
    ∧ (⟨"a", 1, some 2, "s1", false⟩ : Row).to_date ≠ none :=
  ⟨rfl, by decide⟩

/-- C4 (amended): the close operation selects the row with the greatest
`from_date` for the name and writes its `to_date` unconditionally — open
or already closed — so a closed most-recent row is overwritten rather than
left untouched. -/
theorem claim4_amended (d : Nat) (nm : String) (l1 l2 : List Row) (s : Row)
    (hname : s.name = nm)
    (hmax : ∀ r ∈ l1 ++ l2, r.name = nm → r.from_date < s.from_date) :
    closeOne d nm (l1 ++ s :: l2) = l1 ++ { s with to_date := some d } :: l2 :=
  closeOne_strictMax d nm l1 l2 s hname hmax

/-- Witness instantiating C4's amended theorem: the most recent row for `a`
is already closed (`to_date = some 6`) and is overwritten anyway. -/
theorem claim4_witness :
    closeOne 9 "a" [⟨"a", 1, some 2, "s0", false⟩, ⟨"a", 5, some 6, "s1", false⟩]
      = [⟨"a", 1, some 2, "s0", false⟩, ⟨"a", 5, some 9, "s1", false⟩] :=
  claim4_amended 9 "a" [⟨"a", 1, some 2, "s0", false⟩] []
    ⟨"a", 5, some 6, "s1", false⟩ rfl (by decide)

/-- C6: a single timestamp `d`, fixed once per run, is used for every row
the run touches — every row of the close loop's output is either an
untouched pre-existing row or has `to_date = some d`, and every row of the
open loop's output is either a pre-existing row or a fresh open row with
`from_date = d`.  Hence for a changed reference the closed row's `to_date`
and the newly opened row's `from_date` are the same value `d`: consecutive
intervals abut with no gap and no overlap. -/
theorem claim6_single_timestamp (g : GitState) (d : Nat) (names refs : List Ref)
    (ledger l2 : List Row) :
    (∀ row ∈ closeRows d names ledger, row ∈ ledger ∨ row.to_date = some d)
    ∧ (openRows g d refs ledger = .ok l2 →
        ∀ row ∈ l2, row ∈ ledger ∨ (row.from_date = d ∧ row.to_date = none)) :=
  ⟨fun row hrow => closeRows_mem d names ledger row hrow,
   fun h row hrow => openRows_mem g d refs ledger l2 row h hrow⟩

/-- Witness instantiating C6 at a concrete run: the closed row gets
`to_date = some 5` and the opened row gets `from_date = 5` — the same
timestamp. -/
theorem claim6_witness :
    ((⟨"a", 1, some 5, "s", false⟩ : Row) ∈ ([⟨"a", 1, none, "s", false⟩] : List Row)
      ∨ (⟨"a", 1, some 5, "s", false⟩ : Row).to_date = some 5)
    ∧ ((⟨"b", 5, none, "s2", false⟩ : Row) ∈ ([⟨"a", 1, none, "s", false⟩] : List Row)
      ∨ ((⟨"b", 5, none, "s2", false⟩ : Row).from_date = 5
          ∧ (⟨"b", 5, none, "s2", false⟩ : Row).to_date = none)) :=
  ⟨(claim6_single_timestamp ⟨fun _ => some "s2", fun _ => false, fun _ _ => false,
      fun _ => true, [], []⟩ 5 [⟨"a", false⟩] [⟨"b", false⟩]
      [⟨"a", 1, none, "s", false⟩]
      [⟨"a", 1, none, "s", false⟩, ⟨"b", 5, none, "s2", false⟩]).1
      ⟨"a", 1, some 5, "s", false⟩ (by decide),
   (claim6_single_timestamp ⟨fun _ => some "s2", fun _ => false, fun _ _ => false,
      fun _ => true, [], []⟩ 5 [⟨"a", false⟩] [⟨"b", false⟩]
      [⟨"a", 1, none, "s", false⟩]
      [⟨"a", 1, none, "s", false⟩, ⟨"b", 5, none, "s2", false⟩]).2
      rfl ⟨"b", 5, none, "s2", false⟩ (by decide)⟩

/-! ### Claim about transactional rollback (C8) -/

theorem update_ok_or_rollback (ledger0 : List Row) (g0 : GitState) (d : Nat)
    (fetched : Except Err RefDiff) :
    (update_with_date ledger0 g0 d fetched).1 = .ok () ∨
      (update_with_date ledger0 g0 d fetched).2.1 = ledger0 := by
  unfold update_with_date
  rcases fetched with e | out
  · exact Or.inr rfl
  · simp only
    split
    · exact Or.inr rfl
    · split
      · exact Or.inr rfl
      · split
        · exact Or.inr rfl
        · exact Or.inl rfl

/-- C8: a run that returns an error before the final commit leaves the
committed ledger exactly as it was before the run (the open transaction is
discarded), while backend keeper mutations already performed remain
applied.  The first part states the rollback for every erroring run; the
second exhibits a concrete run that fails during pass 2's pruning, after
pass 1 created the keeper `keep-s2`: the ledger reverts to its pre-run
rows, yet the backend state still contains the keeper created in pass 1. -/
theorem claim8_ledger_rollback :
    (∀ (ledger0 : List Row) (g0 : GitState) (d : Nat)
        (fetched : Except Err RefDiff) (e : Err),
      (update_with_date ledger0 g0 d fetched).1 = .error e →
      (update_with_date ledger0 g0 d fetched).2.1 = ledger0)
    ∧ ((update_with_date [⟨"b", 1, none, "s1", false⟩] gFail 5
          (.ok ⟨[⟨"b", false⟩], [], []⟩)).1 = .error .deleteFailed
      ∧ (update_with_date [⟨"b", 1, none, "s1", false⟩] gFail 5
          (.ok ⟨[⟨"b", false⟩], [], []⟩)).2.1 = [⟨"b", 1, none, "s1", false⟩]
      ∧ ((update_with_date [⟨"b", 1, none, "s1", false⟩] gFail 5
          (.ok ⟨[⟨"b", false⟩], [], []⟩)).2.2).branches
          = [("old", "s0"), ("keep-s2", "s2")]) := by
  refine ⟨fun ledger0 g0 d fetched e h => ?_, rfl, rfl, rfl⟩
  rcases update_ok_or_rollback ledger0 g0 d fetched with h1 | h1
  · rw [h1] at h
    cases h
  · exact h1

/-- Witness instantiating C8's universally quantified part at the concrete
failing run of its second part. -/
theorem claim8_witness :
    (update_with_date [] gFail 5 (.ok ⟨[⟨"b", false⟩], [], []⟩)).2.1 = [] :=
  claim8_ledger_rollback.1 [] gFail 5 (.ok ⟨[⟨"b", false⟩], [], []⟩)
    .deleteFailed rfl

/-! ### Claims about the configuration dispatch (C9, C10) -/

/-- C9: when the per-directory configuration marker `doublegit.json` does
not exist, the API update operation returns success immediately —
independently of whether the file could be opened, of any parse result and
of the handler configuration — so absence of the file is a skip, not an
error, and no configuration is read. -/
theorem claim9_missing_config_skip (canOpen : Bool) (parsed : Except String Json)
    (parseGithub : List (String × Json) → Except String Unit) :
    Apis.update_with_date false canOpen parsed parseGithub = .ok := rfl

/-- C10: a configuration object whose string key `type` holds any value
other than `github` makes the operation abort through the failed
`assert!(type_name == "github")` (a panic), not a typed error; while a
missing `type` key and a non-object configuration both produce typed
configuration errors. -/
theorem claim10_type_assertion :
    (∀ (fields rest : List (String × Json)) (s : String)
        (pg : List (String × Json) → Except String Unit),
      removeKey "type" fields = some (.str s, rest) → s ≠ "github" →
      Apis.update_with_date true true (.ok (.obj fields)) pg = .panicked)
    ∧ (∀ (fields : List (String × Json))
        (pg : List (String × Json) → Except String Unit),
      removeKey "type" fields = none →
      Apis.update_with_date true true (.ok (.obj fields)) pg
        = .err (.config "Config does not contain a key \"type\""))
    ∧ (∀ (j : Json) (pg : List (String × Json) → Except String Unit),
      (∀ fields, j ≠ Json.obj fields) →
      Apis.update_with_date true true (.ok j) pg
        = .err (.config "Config is not an object")) := by
  refine ⟨fun fields rest s pg h hs => ?_, fun fields pg h => ?_, fun j pg h => ?_⟩
  · simp [Apis.update_with_date, h, hs]
  · simp [Apis.update_with_date, h]
  · cases j with
    | obj fields => exact absurd rfl (h fields)
    | null => rfl
    | bool b => rfl
    | num n => rfl
    | str s => rfl
    | arr xs => rfl

/-- Witness instantiating C10: a `type` of `gitlab` panics, a config with
no `type` key errors, a JSON array errors. -/
theorem claim10_witness :
    Apis.update_with_date true true (.ok (.obj [("type", .str "gitlab")]))
        (fun _ => .ok ()) = .panicked
    ∧ Apis.update_with_date true true (.ok (.obj [("x", .num 3)]))
        (fun _ => .ok ()) = .err (.config "Config does not contain a key \"type\"")
    ∧ Apis.update_with_date true true (.ok (.arr []))
        (fun _ => .ok ()) = .err (.config "Config is not an object") :=
  ⟨claim10_type_assertion.1 [("type", .str "gitlab")] [] "gitlab" (fun _ => .ok ())
      rfl (by decide),
   claim10_type_assertion.2.1 [("x", .num 3)] (fun _ => .ok ()) rfl,
   claim10_type_assertion.2.2 (.arr []) (fun _ => .ok ())
      (fun fields h => Json.noConfusion h)⟩

/-! ### Claim about keeper synthesis (C7) -/

/-- C7: pass 1 creates a tag-style keeper `refs/kept-tags/tag-<sha>` if and
only if the frontier reference is a tag and the backend reports `sha` as an
annotated tag object; in every other case — branches, and lightweight tags
whose commit is not an annotated tag object — it creates the branch-style
keeper `keep-<sha>`.  The third part shows pass 1 performs this step for
each frontier reference in turn. -/
theorem claim7_keeper_synthesis (g : GitState) (r : Ref) (sha : String) :
    ((r.tag && is_annotated_tag g sha) = true →
      pass1Step g r sha = make_ref g ("refs/kept-tags/tag-" ++ sha) sha)
    ∧ ((r.tag && is_annotated_tag g sha) = false →
      pass1Step g r sha = make_branch g ("keep-" ++ sha) sha)
    ∧ (∀ rest, get_sha g r.fullname = .ok sha →
        pass1 g (r :: rest) = pass1 (pass1Step g r sha) rest) := by
  refine ⟨fun h => ?_, fun h => ?_, fun rest h => ?_⟩
  · simp [pass1Step, h, tagKeeperName]
  · simp [pass1Step, h, keeperName]
  · simp only [pass1, h]

/-- Witness instantiating C7: an annotated tag gets the tag-style keeper, a
branch the branch-style keeper. -/
theorem claim7_witness :
    pass1Step ⟨fun _ => some "S", fun _ => true, fun _ _ => false, fun _ => true, [], []⟩
        ⟨"v1", true⟩ "S"
      = make_ref ⟨fun _ => some "S", fun _ => true, fun _ _ => false, fun _ => true, [], []⟩
        ("refs/kept-tags/tag-" ++ "S") "S"
    ∧ pass1Step ⟨fun _ => some "S", fun _ => true, fun _ _ => false, fun _ => true, [], []⟩
        ⟨"m", false⟩ "S"
      = make_branch ⟨fun _ => some "S", fun _ => true, fun _ _ => false, fun _ => true, [], []⟩
        ("keep-" ++ "S") "S" :=
  ⟨(claim7_keeper_synthesis
      ⟨fun _ => some "S", fun _ => true, fun _ _ => false, fun _ => true, [], []⟩
      ⟨"v1", true⟩ "S").1 (by decide),
   (claim7_keeper_synthesis
      ⟨fun _ => some "S", fun _ => true, fun _ _ => false, fun _ => true, [], []⟩
      ⟨"m", false⟩ "S").2.1 (by decide)⟩

/-! ### Lemmas about pass 2 (for C1, C2) -/

theorem deleteLoop_allOk (k : String) (ns : List String) (g : GitState)
    (hdel : ∀ n, g.deleteOk n = true) :
    deleteLoop k ns g =
      ({ g with branches :=
          g.branches.filter (fun b => decide (b.1 = k ∨ b.1 ∉ ns)) }, .ok ()) := by
  induction ns generalizing g with
  | nil =>
    have hb : g.branches.filter
        (fun b => decide (b.1 = k ∨ b.1 ∉ ([] : List String))) = g.branches := by
      apply List.filter_eq_self.mpr
      intro b _
      simp
    simp only [deleteLoop]
    rw [hb]
  | cons br rest ih =>
    simp only [deleteLoop]
    by_cases hbr : br = k
    · rw [if_pos hbr, ih g hdel]
      have hc : ∀ b ∈ g.branches,
          (decide (b.1 = k ∨ b.1 ∉ rest) : Bool)
            = decide (b.1 = k ∨ b.1 ∉ br :: rest) := by
        intro b _
        subst hbr
        simp only [decide_eq_decide, List.mem_cons, not_or]
        tauto
      rw [List.filter_congr hc]
    · rw [if_neg hbr]
      have hd : delete_branch g br
          = .ok { g with branches := g.branches.filter (fun b => b.1 != br) } := by
        simp [delete_branch, hdel br]
      rw [hd]
      have ih2 := ih { g with branches := g.branches.filter (fun b => b.1 != br) }
        (fun n => hdel n)
      dsimp only
      dsimp only at ih2
      rw [ih2]
      rw [List.filter_filter]
      have hc : ∀ b ∈ g.branches,
          ((decide (b.1 = k ∨ b.1 ∉ rest) : Bool) && (b.1 != br))
            = decide (b.1 = k ∨ b.1 ∉ br :: rest) := by
        intro b _
        have hkbr : ¬k = br := fun h => hbr h.symm
        by_cases h1 : b.1 = k
        · simp [h1, hkbr, List.mem_cons]
        · by_cases h2 : b.1 = br
          · simp [h1, h2, hbr, List.mem_cons]
          · by_cases h3 : b.1 ∈ rest
            · simp [h1, h2, h3, List.mem_cons]
            · simp [h1, h2, h3, List.mem_cons]
      rw [List.filter_congr hc]

theorem included_branches_mem (g : GitState) (sha : String)
    (hnodup : (g.branches.map Prod.fst).Nodup) (b : String × String)
    (hb : b ∈ g.branches) :
    b.1 ∈ included_branches g sha ↔ g.ancestor b.2 sha = true := by
  unfold included_branches
  constructor
  · intro h
    rcases List.mem_map.mp h with ⟨b2, hb2, heq⟩
    have hb2m : b2 ∈ g.branches := List.mem_of_mem_filter hb2
    have hbb : b2 = b := List.inj_on_of_nodup_map hnodup hb2m hb heq
    have := List.of_mem_filter hb2
    rwa [hbb] at this
  · intro h
    exact List.mem_map.mpr ⟨b, List.mem_filter.mpr ⟨hb, h⟩, rfl⟩

/-- C1: for a frontier reference with commit id `sha`, pass 2's descendant
collapsing deletes exactly the existing branches whose tips are ancestors
of `sha`, except the one named `keep-<sha>` itself: a non-keeper-named
branch survives the whole pass-2 step if and only if its tip is not an
ancestor of `sha` (the self-redundancy step can only remove `keep-<sha>`),
and the `keep-<sha>`-named branch always survives the collapsing loop.
The reference `r` is arbitrary — tag or branch — so the collapsing runs
unconditionally for every frontier reference. -/
theorem claim1_descendant_collapsing (g : GitState) (r : Ref) (sha : String)
    (hnodup : (g.branches.map Prod.fst).Nodup)
    (hdel : ∀ n, g.deleteOk n = true) :
    (∀ b ∈ g.branches, b.1 ≠ keeperName sha →
      (b ∈ ((pass2Step g r sha).1).branches ↔ g.ancestor b.2 sha = false))
    ∧ (∀ b ∈ g.branches, b.1 = keeperName sha →
      b ∈ ((deleteLoop (keeperName sha) (included_branches g sha) g).1).branches)
    ∧ (pass2Step g r sha).2 = .ok () := by
  have hD := deleteLoop_allOk (keeperName sha) (included_branches g sha) g hdel
  have hmem1 : ∀ b : String × String,
      b ∈ ((deleteLoop (keeperName sha) (included_branches g sha) g).1).branches ↔
        b ∈ g.branches ∧ (b.1 = keeperName sha ∨ b.1 ∉ included_branches g sha) := by
    intro b
    rw [hD]
    dsimp only
    rw [List.mem_filter]
    constructor
    · rintro ⟨h1, h2⟩
      exact ⟨h1, of_decide_eq_true h2⟩
    · rintro ⟨h1, h2⟩
      exact ⟨h1, decide_eq_true h2⟩
  have hfin : ∀ b : String × String, b.1 ≠ keeperName sha →
      (b ∈ ((pass2Step g r sha).1).branches ↔
        b ∈ ((deleteLoop (keeperName sha) (included_branches g sha) g).1).branches) := by
    intro b hbk
    unfold pass2Step
    rw [hD]
    dsimp only
    split
    · simp only [delete_branch, hdel]
      simp only [if_true, List.mem_filter, bne_iff_ne]
      exact ⟨fun h => h.1, fun h => ⟨h, hbk⟩⟩
    · exact Iff.rfl
  refine ⟨fun b hb hbk => ?_, fun b hb hbe => (hmem1 b).mpr ⟨hb, Or.inl hbe⟩, ?_⟩
  · rw [hfin b hbk, hmem1 b, included_branches_mem g sha hnodup b hb]
    constructor
    · rintro ⟨-, h2 | h2⟩
      · exact absurd h2 hbk
      · exact Bool.not_eq_true (g.ancestor b.2 sha) ▸ h2
    · intro h2
      refine ⟨hb, Or.inr ?_⟩
      rw [h2]
      exact Bool.false_ne_true
  · unfold pass2Step
    rw [hD]
    dsimp only
    split
    · simp only [delete_branch, hdel]
      simp only [if_true]
    · rfl

/-- Witness instantiating C1: `sha = B`, the existing keeper `keep-A` has a
tip that is an ancestor of `B` and gets deleted, even though the frontier
reference is a tag. -/
theorem claim1_witness :
    (("keep-A", "A") ∈ ((pass2Step
        ⟨fun _ => some "B", fun _ => false,
          fun a b => decide (a = "A" ∧ b = "B"), fun _ => true,
          [("keep-A", "A"), ("keep-B", "B"), ("u", "C")], []⟩
        ⟨"t", true⟩ "B").1).branches
      ↔ (⟨fun _ => some "B", fun _ => false,
          fun a b => decide (a = "A" ∧ b = "B"), fun _ => true,
          [("keep-A", "A"), ("keep-B", "B"), ("u", "C")], []⟩ : GitState).ancestor
          "A" "B" = false) :=
  (claim1_descendant_collapsing
    ⟨fun _ => some "B", fun _ => false, fun a b => decide (a = "A" ∧ b = "B"),
      fun _ => true, [("keep-A", "A"), ("keep-B", "B"), ("u", "C")], []⟩
    ⟨"t", true⟩ "B" (by decide) (fun _ => rfl)).1
    ("keep-A", "A") (by decide) (by decide)

/-- C2: the self-redundancy deletion.  When the frontier reference is not
an annotated tag and, after collapsing, strictly more than one existing
branch contains `sha` as an ancestor of its tip, the reference's own keeper
`keep-<sha>` is deleted (no surviving branch carries that name); when the
frontier reference is an annotated tag, the self-redundancy deletion is
never performed — the pass-2 state is exactly the post-collapse state. -/
theorem claim2_self_redundancy (g : GitState) (r : Ref) (sha : String)
    (hdel : ∀ n, g.deleteOk n = true) :
    ((r.tag && is_annotated_tag g sha) = false →
      1 < (including_branches
        ((deleteLoop (keeperName sha) (included_branches g sha) g).1) sha).length →
      ∀ b ∈ ((pass2Step g r sha).1).branches, b.1 ≠ keeperName sha)
    ∧ ((r.tag && is_annotated_tag g sha) = true →
      (pass2Step g r sha).1
        = (deleteLoop (keeperName sha) (included_branches g sha) g).1) := by
  have hD := deleteLoop_allOk (keeperName sha) (included_branches g sha) g hdel
  constructor
  · intro h1 h2 b hb
    rw [hD] at h2
    dsimp only at h2
    unfold pass2Step at hb
    rw [hD] at hb
    dsimp only at hb
    rw [if_pos ⟨h1, h2⟩] at hb
    simp only [delete_branch, hdel] at hb
    simp only [if_true, List.mem_filter, bne_iff_ne] at hb
    exact hb.2
  · intro h1
    unfold pass2Step
    rw [hD]
    dsimp only
    rw [if_neg (fun hc => Bool.noConfusion (h1.symm.trans hc.1))]

/-- Witness instantiating C2: both existing branches include `S`, so the
(here nonexistent) keeper name `keep-S` is absent from every surviving
branch; applied to the surviving branch `b1`. -/
theorem claim2_witness :
    ("b1", "X").1 ≠ keeperName "S" :=
  (claim2_self_redundancy
    ⟨fun _ => some "S", fun _ => false, fun a _ => decide (a = "S"),
      fun _ => true, [("b1", "X"), ("b2", "Y")], []⟩
    ⟨"m", false⟩ "S" (fun _ => rfl)).1 (by decide) (by decide)
    ("b1", "X") (by decide)

/-! ### Lemmas for the single-open-row invariant (C5) -/

theorem openCount_append (nm : String) (a b : List Row) :
    openCount nm (a ++ b) = openCount nm a + openCount nm b := by
  simp [openCount, List.filter_append]

theorem openCount_eq_zero (nm : String) (l : List Row)
    (h : ∀ r ∈ l, ¬(r.name = nm ∧ r.to_date = none)) : openCount nm l = 0 := by
  unfold openCount
  rw [List.length_eq_zero]
  apply List.filter_eq_nil_iff.mpr
  intro r hr
  simp only [decide_eq_true_iff]
  exact h r hr

theorem openCount_ne_zero_of_mem (nm : String) (l : List Row) (r : Row)
    (hr : r ∈ l) (hname : r.name = nm) (hopen : r.to_date = none) :
    openCount nm l ≠ 0 := by
  unfold openCount
  intro h
  rw [List.length_eq_zero] at h
  have : r ∈ l.filter (fun r => decide (r.name = nm ∧ r.to_date = none)) :=
    List.mem_filter.mpr ⟨hr, decide_eq_true ⟨hname, hopen⟩⟩
  rw [h] at this
  cases this

theorem openCount_one_decomp (nm : String) (ledger : List Row)
    (h : openCount nm ledger = 1) :
    ∃ l1 s l2, ledger = l1 ++ s :: l2 ∧ s.name = nm ∧ s.to_date = none
      ∧ (∀ r ∈ l1, ¬(r.name = nm ∧ r.to_date = none))
      ∧ (∀ r ∈ l2, ¬(r.name = nm ∧ r.to_date = none)) := by
  unfold openCount at h
  obtain ⟨s, hs⟩ := List.length_eq_one.mp h
  obtain ⟨l1, l2, hl, h1, h2, h3⟩ := List.filter_eq_cons_iff.mp hs
  have hsprop : s.name = nm ∧ s.to_date = none := of_decide_eq_true h2
  refine ⟨l1, s, l2, hl, hsprop.1, hsprop.2, ?_, ?_⟩
  · intro r hr hprop
    exact absurd (decide_eq_true hprop) (h1 r hr)
  · intro r hr hprop
    have : r ∈ l2.filter (fun r => decide (r.name = nm ∧ r.to_date = none)) :=
      List.mem_filter.mpr ⟨hr, decide_eq_true hprop⟩
    rw [h3] at this
    cases this

theorem closeOne_inv (d : Nat) (nm : String) (ledger : List Row)
    (h1 : openCount nm ledger = 1) (h2 : strictLatest ledger) :
    ∃ l1 s l2, ledger = l1 ++ s :: l2 ∧ s.name = nm ∧ s.to_date = none
      ∧ (∀ r ∈ l1, ¬(r.name = nm ∧ r.to_date = none))
      ∧ (∀ r ∈ l2, ¬(r.name = nm ∧ r.to_date = none))
      ∧ closeOne d nm ledger = l1 ++ { s with to_date := some d } :: l2 := by
  obtain ⟨l1, s, l2, hl, hsn, hso, hno1, hno2⟩ := openCount_one_decomp nm ledger h1
  refine ⟨l1, s, l2, hl, hsn, hso, hno1, hno2, ?_⟩
  subst hl
  apply closeOne_strictMax d nm l1 l2 s hsn
  intro r hr hrname
  have hrmem : r ∈ l1 ++ s :: l2 := by
    rcases List.mem_append.mp hr with h | h
    · exact List.mem_append_left _ h
    · exact List.mem_append_right _ (List.mem_cons_of_mem s h)
  have hrs : r ≠ s := by
    intro he
    rcases List.mem_append.mp hr with h | h
    · exact hno1 r h ⟨hrname, he ▸ hso⟩
    · exact hno2 r h ⟨hrname, he ▸ hso⟩
  exact h2 s (List.mem_append_right l1 (List.mem_cons_self s l2)) hso r hrmem
    (hrname.trans hsn.symm) hrs

theorem closeOne_count_self (d : Nat) (nm : String) (ledger : List Row)
    (h1 : openCount nm ledger = 1) (h2 : strictLatest ledger) :
    openCount nm (closeOne d nm ledger) = 0 := by
  obtain ⟨l1, s, l2, hl, hsn, hso, hno1, hno2, heq⟩ := closeOne_inv d nm ledger h1 h2
  rw [heq]
  apply openCount_eq_zero
  intro r hr
  rcases List.mem_append.mp hr with h | h
  · exact hno1 r h
  · rcases List.mem_cons.mp h with rfl | h
    · rintro ⟨-, hc⟩
      cases hc
    · exact hno2 r h

theorem closeOne_count_other (d : Nat) (nm nm2 : String) (ledger : List Row)
    (hne : nm2 ≠ nm)
    (h1 : openCount nm ledger = 1) (h2 : strictLatest ledger) :
    openCount nm2 (closeOne d nm ledger) = openCount nm2 ledger := by
  obtain ⟨l1, s, l2, hl, hsn, hso, hno1, hno2, heq⟩ := closeOne_inv d nm ledger h1 h2
  rw [heq, hl]
  have hs2 : ¬(s.name = nm2 ∧ s.to_date = none) := fun hc => hne (hc.1 ▸ hsn)
  have hs3 : ¬(({ s with to_date := some d } : Row).name = nm2
      ∧ ({ s with to_date := some d } : Row).to_date = none) := by
    rintro ⟨-, hc⟩
    cases hc
  rw [openCount_append, openCount_append]
  congr 1
  unfold openCount
  rw [List.filter_cons, List.filter_cons, decide_eq_false hs2, decide_eq_false hs3]
  simp

theorem closeOne_strictLatest (d : Nat) (nm : String) (ledger : List Row)
    (h1 : openCount nm ledger = 1) (h2 : strictLatest ledger) :
    strictLatest (closeOne d nm ledger) := by
  obtain ⟨l1, s, l2, hl, hsn, hso, hno1, hno2, heq⟩ := closeOne_inv d nm ledger h1 h2
  rw [heq]
  intro r hr hro r2 hr2 hname hne
  -- r is open in the result, so r is not the freshly closed row
  have hrold : r ∈ l1 ++ s :: l2 := by
    rcases List.mem_append.mp hr with h | h
    · exact List.mem_append_left _ h
    · rcases List.mem_cons.mp h with rfl | h
      · cases hro
      · exact List.mem_append_right _ (List.mem_cons_of_mem s h)
  -- r does not carry the closed name nm
  have hrname : r.name ≠ nm := by
    intro hc
    rcases List.mem_append.mp hr with h | h
    · exact hno1 r h ⟨hc, hro⟩
    · rcases List.mem_cons.mp h with rfl | h
      · cases hro
      · exact hno2 r h ⟨hc, hro⟩
  rcases List.mem_append.mp hr2 with h | h
  · exact h2 r (hl ▸ hrold) hro r2 (hl ▸ List.mem_append_left _ h) hname hne
  · rcases List.mem_cons.mp h with rfl | h
    · exact absurd (hname.symm ▸ hsn) (by simpa using hrname)
    · exact h2 r (hl ▸ hrold) hro r2
        (hl ▸ List.mem_append_right _ (List.mem_cons_of_mem s h)) hname hne

theorem closeOne_bound (d d2 : Nat) (nm : String) (ledger : List Row)
    (h1 : openCount nm ledger = 1) (h2 : strictLatest ledger)
    (hb : ∀ r ∈ ledger, r.from_date < d2) :
    ∀ r ∈ closeOne d nm ledger, r.from_date < d2 := by
  obtain ⟨l1, s, l2, hl, hsn, hso, hno1, hno2, heq⟩ := closeOne_inv d nm ledger h1 h2
  rw [heq]
  intro r hr
  rcases List.mem_append.mp hr with h | h
  · exact hb r (hl ▸ List.mem_append_left _ h)
  · rcases List.mem_cons.mp h with rfl | h
    · exact hb s (hl ▸ List.mem_append_right _ (List.mem_cons_self s l2))
    · exact hb r (hl ▸ List.mem_append_right _ (List.mem_cons_of_mem s h))

theorem closeRows_inv (d : Nat) (refs : List Ref) (ledger : List Row)
    (hnd : (refs.map Ref.name).Nodup)
    (hcount : ∀ rf ∈ refs, openCount rf.name ledger = 1)
    (hsl : strictLatest ledger)
    (hb : ∀ r ∈ ledger, r.from_date < d) :
    (∀ nm, openCount nm (closeRows d refs ledger)
        = if nm ∈ refs.map Ref.name then 0 else openCount nm ledger)
    ∧ strictLatest (closeRows d refs ledger)
    ∧ (∀ r ∈ closeRows d refs ledger, r.from_date < d) := by
  induction refs generalizing ledger with
  | nil =>
    refine ⟨fun nm => ?_, hsl, hb⟩
    simp [closeRows]
  | cons rf rest ih =>
    have h1 : openCount rf.name ledger = 1 := hcount rf (List.mem_cons_self rf rest)
    have hnd2 : (rest.map Ref.name).Nodup := (List.nodup_cons.mp hnd).2
    have hhead : rf.name ∉ rest.map Ref.name := (List.nodup_cons.mp hnd).1
    have hcount2 : ∀ rf2 ∈ rest, openCount rf2.name (closeOne d rf.name ledger) = 1 := by
      intro rf2 hrf2
      have hne : rf2.name ≠ rf.name := by
        intro hc
        exact hhead (hc ▸ List.mem_map_of_mem Ref.name hrf2)
      rw [closeOne_count_other d rf.name rf2.name ledger hne h1 hsl]
      exact hcount rf2 (List.mem_cons_of_mem rf hrf2)
    have hsl2 := closeOne_strictLatest d rf.name ledger h1 hsl
    have hb2 := closeOne_bound d d rf.name ledger h1 hsl hb
    obtain ⟨ihc, ihs, ihb⟩ := ih (closeOne d rf.name ledger) hnd2 hcount2 hsl2 hb2
    rw [show closeRows d (rf :: rest) ledger
        = closeRows d rest (closeOne d rf.name ledger) from rfl]
    refine ⟨fun nm => ?_, ihs, ihb⟩
    rw [ihc nm]
    by_cases hmem : nm ∈ rest.map Ref.name
    · rw [if_pos hmem, if_pos]
      simp [List.mem_cons, hmem]
    · rw [if_neg hmem]
      by_cases heq : nm = rf.name
      · subst heq
        rw [closeOne_count_self d rf.name ledger h1 hsl, if_pos]
        simp [List.mem_cons]
      · rw [closeOne_count_other d rf.name nm ledger heq h1 hsl, if_neg]
        simp only [List.map_cons, List.mem_cons]
        rintro (hc | hc)
        · exact heq hc
        · exact hmem hc

theorem openRows_ok (g : GitState) (d : Nat) (refs : List Ref) (ledger : List Row)
    (hres : ∀ rf ∈ refs, (g.resolve rf.fullname).isSome) :
    ∃ tail, openRows g d refs ledger = .ok (ledger ++ tail)
      ∧ tail.map Row.name = refs.map Ref.name
      ∧ (∀ row ∈ tail, row.from_date = d ∧ row.to_date = none) := by
  induction refs generalizing ledger with
  | nil => exact ⟨[], by simp [openRows], by simp, by simp⟩
  | cons rf rest ih =>
    have h0 := hres rf (List.mem_cons_self rf rest)
    obtain ⟨sha, hsha⟩ := Option.isSome_iff_exists.mp h0
    obtain ⟨tail2, htl, hnames, hprops⟩ :=
      ih (ledger ++ [⟨rf.name, d, none, sha, rf.tag⟩])
        (fun rf2 h => hres rf2 (List.mem_cons_of_mem rf h))
    refine ⟨⟨rf.name, d, none, sha, rf.tag⟩ :: tail2, ?_, ?_, ?_⟩
    · simp only [openRows, get_sha, hsha]
      rw [htl, List.append_assoc]
      rfl
    · simp [hnames]
    · intro row hrow
      rcases List.mem_cons.mp hrow with rfl | h
      · exact ⟨rfl, rfl⟩
      · exact hprops row h

theorem openCount_all_open (nm : String) (tail : List Row)
    (hopen : ∀ row ∈ tail, row.to_date = none)
    (hnd : (tail.map Row.name).Nodup) :
    openCount nm tail = if nm ∈ tail.map Row.name then 1 else 0 := by
  induction tail with
  | nil => simp [openCount]
  | cons row tl ih =>
    have hnd2 := (List.nodup_cons.mp hnd).2
    have hhead := (List.nodup_cons.mp hnd).1
    have ihv := ih (fun r h => hopen r (List.mem_cons_of_mem row h)) hnd2
    unfold openCount
    rw [List.filter_cons]
    by_cases hname : row.name = nm
    · rw [decide_eq_true ⟨hname, hopen row (List.mem_cons_self row tl)⟩]
      have h0 : openCount nm tl = 0 := by
        rw [ihv, if_neg]
        rw [← hname]
        exact hhead
      unfold openCount at h0
      simp only [if_true, List.length_cons, h0]
      rw [if_pos]
      simp [List.mem_cons, hname.symm]
    · rw [decide_eq_false (fun hc => hname hc.1)]
      simp only [Bool.false_eq_true, if_false]
      rw [show (List.filter (fun r => decide (r.name = nm ∧ r.to_date = none)) tl).length
          = openCount nm tl from rfl, ihv]
      by_cases hmem : nm ∈ tl.map Row.name
      · rw [if_pos hmem, if_pos]
        simp [List.mem_cons, hmem]
      · rw [if_neg hmem, if_neg]
        simp only [List.map_cons, List.mem_cons]
        rintro (hc | hc)
        · exact hname hc.symm
        · exact hmem hc

theorem append_strictLatest (lc tail : List Row) (d : Nat)
    (hsl : strictLatest lc)
    (hb : ∀ r ∈ lc, r.from_date < d)
    (htail : ∀ row ∈ tail, row.from_date = d ∧ row.to_date = none)
    (hnd : (tail.map Row.name).Nodup)
    (hnoclash : ∀ row ∈ tail, openCount row.name lc = 0) :
    strictLatest (lc ++ tail) := by
  intro r hr hro r2 hr2 hname hne
  rcases List.mem_append.mp hr with h | h
  · rcases List.mem_append.mp hr2 with h2 | h2
    · exact hsl r h hro r2 h2 hname hne
    · exact absurd (hnoclash r2 h2)
        (openCount_ne_zero_of_mem r2.name lc r h hname.symm hro)
  · have hrd := (htail r h).1
    rcases List.mem_append.mp hr2 with h2 | h2
    · rw [hrd]
      exact hb r2 h2
    · exact absurd (List.inj_on_of_nodup_map hnd h2 h hname) hne

theorem mem_diff_removed (prev cur : Observed) (rf : Ref) :
    rf ∈ (diffOf prev cur).removed ↔
      ∃ q, q ∈ prev ∧ (∀ p ∈ cur, p.1 ≠ q.1) ∧ q.1 = rf := by
  rw [show (diffOf prev cur).removed
      = (prev.filter (fun q => !(cur.any (fun p => decide (p.1 = q.1))))).map Prod.fst
      from rfl]
  rw [List.mem_map]
  constructor
  · rintro ⟨q, hq, rfl⟩
    have h1 := List.mem_of_mem_filter hq
    have h2 := List.of_mem_filter hq
    rw [Bool.not_eq_true'] at h2
    refine ⟨q, h1, ?_, rfl⟩
    intro p hp hc
    have h3 : cur.any (fun p => decide (p.1 = q.1)) = true :=
      List.any_eq_true.mpr ⟨p, hp, decide_eq_true hc⟩
    rw [h2] at h3
    cases h3
  · rintro ⟨q, hq, hcond, rfl⟩
    refine ⟨q, List.mem_filter.mpr ⟨hq, ?_⟩, rfl⟩
    rw [Bool.not_eq_true', Bool.eq_false_iff]
    intro hany
    obtain ⟨p, hp, hdec⟩ := List.any_eq_true.mp hany
    exact hcond p hp (of_decide_eq_true hdec)

theorem mem_diff_changed (prev cur : Observed) (rf : Ref) :
    rf ∈ (diffOf prev cur).changed ↔
      ∃ p, p ∈ cur ∧ (∃ q ∈ prev, q.1 = p.1 ∧ q.2 ≠ p.2) ∧ p.1 = rf := by
  rw [show (diffOf prev cur).changed
      = (cur.filter (fun p => prev.any (fun q => decide (q.1 = p.1 ∧ q.2 ≠ p.2)))).map Prod.fst
      from rfl]
  rw [List.mem_map]
  constructor
  · rintro ⟨p, hp, rfl⟩
    have h1 := List.mem_of_mem_filter hp
    have h2 := List.of_mem_filter hp
    obtain ⟨q, hq, hdec⟩ := List.any_eq_true.mp h2
    exact ⟨p, h1, ⟨q, hq, of_decide_eq_true hdec⟩, rfl⟩
  · rintro ⟨p, hp, ⟨q, hq, hcond⟩, rfl⟩
    exact ⟨p, List.mem_filter.mpr
      ⟨hp, List.any_eq_true.mpr ⟨q, hq, decide_eq_true hcond⟩⟩, rfl⟩

theorem mem_diff_new (prev cur : Observed) (rf : Ref) :
    rf ∈ (diffOf prev cur).new ↔
      ∃ p, p ∈ cur ∧ (∀ q ∈ prev, q.1 ≠ p.1) ∧ p.1 = rf := by
  rw [show (diffOf prev cur).new
      = (cur.filter (fun p => !(prev.any (fun q => decide (q.1 = p.1))))).map Prod.fst
      from rfl]
  rw [List.mem_map]
  constructor
  · rintro ⟨p, hp, rfl⟩
    have h1 := List.mem_of_mem_filter hp
    have h2 := List.of_mem_filter hp
    rw [Bool.not_eq_true'] at h2
    refine ⟨p, h1, ?_, rfl⟩
    intro q hq hc
    have h3 : prev.any (fun q => decide (q.1 = p.1)) = true :=
      List.any_eq_true.mpr ⟨q, hq, decide_eq_true hc⟩
    rw [h2] at h3
    cases h3
  · rintro ⟨p, hp, hcond, rfl⟩
    refine ⟨p, List.mem_filter.mpr ⟨hp, ?_⟩, rfl⟩
    rw [Bool.not_eq_true', Bool.eq_false_iff]
    intro hany
    obtain ⟨q, hq, hdec⟩ := List.any_eq_true.mp hany
    exact hcond q hq (of_decide_eq_true hdec)

theorem observed_inj (l : Observed) (h : (namesOf l).Nodup) (p q : Ref × String)
    (hp : p ∈ l) (hq : q ∈ l) (he : p.1.name = q.1.name) : p = q :=
  List.inj_on_of_nodup_map h hp hq he

theorem filter_map_names_sublist (c : (Ref × String) → Bool) (l : Observed) :
    (((l.filter c).map Prod.fst).map Ref.name).Sublist (namesOf l) := by
  rw [List.map_map]
  exact (List.filter_sublist l).map (fun p => p.1.name)

theorem rc_names_subset_prev (prev cur : Observed) (rf : Ref)
    (h : rf ∈ (diffOf prev cur).removed ++ (diffOf prev cur).changed) :
    rf.name ∈ namesOf prev := by
  rcases List.mem_append.mp h with h | h
  · obtain ⟨q, hq, hcond, rfl⟩ := (mem_diff_removed prev cur rf).mp h
    exact List.mem_map_of_mem (fun p => p.1.name) hq
  · obtain ⟨p, hp, ⟨q, hq, hq1, hq2⟩, rfl⟩ := (mem_diff_changed prev cur rf).mp h
    have h2 := List.mem_map_of_mem (fun p => p.1.name) hq
    have h3 : q.1.name = p.1.name := by rw [hq1]
    rw [← h3]
    exact h2

theorem cn_mem_cur (prev cur : Observed) (rf : Ref)
    (h : rf ∈ (diffOf prev cur).changed ++ (diffOf prev cur).new) :
    ∃ p ∈ cur, p.1 = rf := by
  rcases List.mem_append.mp h with h | h
  · obtain ⟨p, hp, -, rfl⟩ := (mem_diff_changed prev cur rf).mp h
    exact ⟨p, hp, rfl⟩
  · obtain ⟨p, hp, -, rfl⟩ := (mem_diff_new prev cur rf).mp h
    exact ⟨p, hp, rfl⟩

theorem cn_names_subset_cur (prev cur : Observed) (nm : String)
    (h : nm ∈ ((diffOf prev cur).changed ++ (diffOf prev cur).new).map Ref.name) :
    nm ∈ namesOf cur := by
  obtain ⟨rf, hrf, he⟩ := List.mem_map.mp h
  obtain ⟨p, hp, hpe⟩ := cn_mem_cur prev cur rf hrf
  refine List.mem_map.mpr ⟨p, hp, ?_⟩
  rw [show p.1.name = rf.name from by rw [hpe]]
  exact he

theorem rc_names_nodup (prev cur : Observed)
    (hprev : (namesOf prev).Nodup) (hcur : (namesOf cur).Nodup) :
    (((diffOf prev cur).removed ++ (diffOf prev cur).changed).map Ref.name).Nodup := by
  rw [List.map_append, List.nodup_append]
  refine ⟨List.Nodup.sublist (filter_map_names_sublist _ prev) hprev,
          List.Nodup.sublist (filter_map_names_sublist _ cur) hcur, ?_⟩
  intro nm hnm1 hnm2
  obtain ⟨rf1, h1, he1⟩ := List.mem_map.mp hnm1
  obtain ⟨rf2, h2, he2⟩ := List.mem_map.mp hnm2
  obtain ⟨q, hq, hqc, rfl⟩ := (mem_diff_removed prev cur rf1).mp h1
  obtain ⟨p, hp, ⟨q2, hq2, hq2e, -⟩, rfl⟩ := (mem_diff_changed prev cur rf2).mp h2
  have hqq : q = q2 := observed_inj prev hprev q q2 hq hq2 (by rw [hq2e, he1, he2])
  have hqp : q.1 = p.1 := by
    rw [hqq]
    exact hq2e
  exact hqc p hp hqp.symm

theorem cn_names_nodup (prev cur : Observed)
    (hcur : (namesOf cur).Nodup) :
    (((diffOf prev cur).changed ++ (diffOf prev cur).new).map Ref.name).Nodup := by
  rw [List.map_append, List.nodup_append]
  refine ⟨List.Nodup.sublist (filter_map_names_sublist _ cur) hcur,
          List.Nodup.sublist (filter_map_names_sublist _ cur) hcur, ?_⟩
  intro nm hnm1 hnm2
  obtain ⟨rf1, h1, he1⟩ := List.mem_map.mp hnm1
  obtain ⟨rf2, h2, he2⟩ := List.mem_map.mp hnm2
  obtain ⟨p1, hp1, ⟨q, hq, hqe, -⟩, rfl⟩ := (mem_diff_changed prev cur rf1).mp h1
  obtain ⟨p2, hp2, hcond, rfl⟩ := (mem_diff_new prev cur rf2).mp h2
  have hpp : p1 = p2 := observed_inj cur hcur p1 p2 hp1 hp2 (he1.trans he2.symm)
  refine hcond q hq ?_
  rw [hqe, hpp]

theorem cn_prev_in_rc (prev cur : Observed)
    (hcur : (namesOf cur).Nodup) (nm : String)
    (h1 : nm ∈ ((diffOf prev cur).changed ++ (diffOf prev cur).new).map Ref.name)
    (h2 : nm ∈ namesOf prev) :
    nm ∈ ((diffOf prev cur).removed ++ (diffOf prev cur).changed).map Ref.name := by
  rw [List.map_append] at h1 ⊢
  rcases List.mem_append.mp h1 with h | h
  · exact List.mem_append_right _ h
  · obtain ⟨rf, hrf, he⟩ := List.mem_map.mp h
    obtain ⟨p, hp, hcond, rfl⟩ := (mem_diff_new prev cur rf).mp hrf
    obtain ⟨q2, hq2, hq2e⟩ := List.mem_map.mp h2
    apply List.mem_append_left
    apply List.mem_map.mpr
    refine ⟨q2.1, ?_, hq2e⟩
    apply (mem_diff_removed prev cur q2.1).mpr
    refine ⟨q2, hq2, ?_, rfl⟩
    intro pc hpc hcontra
    have hpcp : pc = p := observed_inj cur hcur pc p hpc hp
      (by rw [hcontra, hq2e]; exact he.symm)
    refine hcond q2 hq2 ?_
    rw [← hpcp]
    exact hcontra.symm

theorem not_cn_iff (prev cur : Observed)
    (hprev : (namesOf prev).Nodup) (nm : String)
    (hn : nm ∉ ((diffOf prev cur).changed ++ (diffOf prev cur).new).map Ref.name) :
    ((nm ∈ namesOf prev
        ∧ nm ∉ ((diffOf prev cur).removed ++ (diffOf prev cur).changed).map Ref.name)
      ↔ nm ∈ namesOf cur) := by
  constructor
  · rintro ⟨h1, h2⟩
    obtain ⟨q, hq, hqe⟩ := List.mem_map.mp h1
    by_cases hex : ∃ pc ∈ cur, pc.1 = q.1
    · obtain ⟨pc, hpc, hpce⟩ := hex
      refine List.mem_map.mpr ⟨pc, hpc, ?_⟩
      rw [show pc.1.name = q.1.name from by rw [hpce]]
      exact hqe
    · exfalso
      apply h2
      rw [List.map_append]
      apply List.mem_append_left
      apply List.mem_map.mpr
      refine ⟨q.1, (mem_diff_removed prev cur q.1).mpr ⟨q, hq, ?_, rfl⟩, hqe⟩
      intro pc hpc hc
      exact hex ⟨pc, hpc, hc⟩
  · intro h1
    obtain ⟨p, hp, hpe⟩ := List.mem_map.mp h1
    have hnotnew : ¬(∀ q ∈ prev, q.1 ≠ p.1) := by
      intro hcond
      apply hn
      rw [List.map_append]
      apply List.mem_append_right
      exact List.mem_map.mpr ⟨p.1, (mem_diff_new prev cur p.1).mpr ⟨p, hp, hcond, rfl⟩, hpe⟩
    push_neg at hnotnew
    obtain ⟨q, hq, hqe⟩ := hnotnew
    constructor
    · refine List.mem_map.mpr ⟨q, hq, ?_⟩
      rw [show q.1.name = p.1.name from by rw [hqe]]
      exact hpe
    · intro hrc
      rw [List.map_append] at hrc
      rcases List.mem_append.mp hrc with h | h
      · obtain ⟨rf2, hrf2, he2⟩ := List.mem_map.mp h
        obtain ⟨q2, hq2, hq2c, rfl⟩ := (mem_diff_removed prev cur rf2).mp hrf2
        have hqq : q2 = q := observed_inj prev hprev q2 q hq2 hq
          (by rw [he2, hqe]; exact hpe.symm)
        refine hq2c p hp ?_
        rw [hqq]
        exact hqe.symm
      · apply hn
        rw [List.map_append]
        exact List.mem_append_left _ h

theorem make_branch_fields (g : GitState) (n s : String) :
    (make_branch g n s).resolve = g.resolve ∧ (make_branch g n s).isAnn = g.isAnn
    ∧ (make_branch g n s).ancestor = g.ancestor
    ∧ (make_branch g n s).deleteOk = g.deleteOk := by
  unfold make_branch
  split
  · exact ⟨rfl, rfl, rfl, rfl⟩
  · exact ⟨rfl, rfl, rfl, rfl⟩

theorem make_ref_fields (g : GitState) (n s : String) :
    (make_ref g n s).resolve = g.resolve ∧ (make_ref g n s).isAnn = g.isAnn
    ∧ (make_ref g n s).ancestor = g.ancestor
    ∧ (make_ref g n s).deleteOk = g.deleteOk := by
  unfold make_ref
  split
  · exact ⟨rfl, rfl, rfl, rfl⟩
  · exact ⟨rfl, rfl, rfl, rfl⟩

theorem pass1Step_fields (g : GitState) (r : Ref) (sha : String) :
    (pass1Step g r sha).resolve = g.resolve ∧ (pass1Step g r sha).isAnn = g.isAnn
    ∧ (pass1Step g r sha).ancestor = g.ancestor
    ∧ (pass1Step g r sha).deleteOk = g.deleteOk := by
  unfold pass1Step
  split
  · exact make_ref_fields g (tagKeeperName sha) sha
  · exact make_branch_fields g (keeperName sha) sha

theorem pass1_ok (refs : List Ref) (g : GitState)
    (hres : ∀ rf ∈ refs, (g.resolve rf.fullname).isSome) :
    ∃ g2, pass1 g refs = (g2, .ok ()) ∧ g2.resolve = g.resolve
      ∧ g2.isAnn = g.isAnn ∧ g2.ancestor = g.ancestor
      ∧ g2.deleteOk = g.deleteOk := by
  induction refs generalizing g with
  | nil => exact ⟨g, rfl, rfl, rfl, rfl, rfl⟩
  | cons rf rest ih =>
    obtain ⟨sha, hsha⟩ :=
      Option.isSome_iff_exists.mp (hres rf (List.mem_cons_self rf rest))
    have hfields := pass1Step_fields g rf sha
    obtain ⟨g2, hp, h1, h2, h3, h4⟩ := ih (pass1Step g rf sha)
      (fun rf2 h => by
        rw [hfields.1]
        exact hres rf2 (List.mem_cons_of_mem rf h))
    refine ⟨g2, ?_, h1.trans hfields.1, h2.trans hfields.2.1,
      h3.trans hfields.2.2.1, h4.trans hfields.2.2.2⟩
    simp only [pass1, get_sha, hsha]
    exact hp

theorem included_branches_nil (g : GitState) (sha : String)
    (hanc : ∀ a b, g.ancestor a b = false) : included_branches g sha = [] := by
  unfold included_branches
  have h : g.branches.filter (fun b => g.ancestor b.2 sha) = [] :=
    List.filter_eq_nil_iff.mpr (fun b _ => by simp [hanc])
  rw [h]
  rfl

theorem including_branches_nil (g : GitState) (sha : String)
    (hanc : ∀ a b, g.ancestor a b = false) : including_branches g sha = [] := by
  unfold including_branches
  have h : g.branches.filter (fun b => g.ancestor sha b.2) = [] :=
    List.filter_eq_nil_iff.mpr (fun b _ => by simp [hanc])
  rw [h]
  rfl

theorem pass2Step_inert (g : GitState) (r : Ref) (sha : String)
    (hanc : ∀ a b, g.ancestor a b = false) : pass2Step g r sha = (g, .ok ()) := by
  unfold pass2Step
  rw [included_branches_nil g sha hanc]
  simp only [deleteLoop]
  rw [if_neg]
  rintro ⟨-, hc⟩
  rw [including_branches_nil g sha hanc] at hc
  simp at hc

theorem pass2_ok (refs : List Ref) (g : GitState)
    (hanc : ∀ a b, g.ancestor a b = false)
    (hres : ∀ rf ∈ refs, (g.resolve rf.fullname).isSome) :
    pass2 g refs = (g, .ok ()) := by
  induction refs with
  | nil => rfl
  | cons rf rest ih =>
    obtain ⟨sha, hsha⟩ :=
      Option.isSome_iff_exists.mp (hres rf (List.mem_cons_self rf rest))
    simp only [pass2, get_sha, hsha, pass2Step_inert g rf sha hanc]
    exact ih (fun rf2 h => hres rf2 (List.mem_cons_of_mem rf h))

theorem mkGit_resolve_isSome (cur : Observed) (rf : Ref) (p : Ref × String)
    (hp : p ∈ cur) (hpe : p.1 = rf) : ((mkGit cur).resolve rf.fullname).isSome := by
  have hfind : (cur.find? (fun p => decide (p.1.fullname = rf.fullname))).isSome :=
    List.find?_isSome.mpr ⟨p, hp, decide_eq_true (by rw [hpe])⟩
  obtain ⟨y, hy⟩ := Option.isSome_iff_exists.mp hfind
  show ((cur.find? (fun p => decide (p.1.fullname = rf.fullname))).map Prod.snd).isSome
  rw [hy]
  rfl

theorem update_run_ledger (prev cur : Observed) (d : Nat) (ledger l2 : List Row)
    (hres : ∀ rf ∈ (diffOf prev cur).changed ++ (diffOf prev cur).new,
      ((mkGit cur).resolve rf.fullname).isSome)
    (hopen : openRows (mkGit cur) d
        ((diffOf prev cur).changed ++ (diffOf prev cur).new)
        (closeRows d ((diffOf prev cur).removed ++ (diffOf prev cur).changed) ledger)
        = .ok l2) :
    (update_with_date ledger (mkGit cur) d (.ok (diffOf prev cur))).2.1 = l2 := by
  unfold update_with_date
  dsimp only
  rw [hopen]
  obtain ⟨g2, hp1, hresolve, hisAnn, hanc, hdel⟩ :=
    pass1_ok ((diffOf prev cur).changed ++ (diffOf prev cur).new) (mkGit cur) hres
  rw [hp1]
  dsimp only
  have hanc2 : ∀ a b, g2.ancestor a b = false := by
    intro a b
    rw [hanc]
    rfl
  have hres2 : ∀ rf ∈ (diffOf prev cur).changed ++ (diffOf prev cur).new,
      (g2.resolve rf.fullname).isSome := by
    intro rf h
    rw [hresolve]
    exact hres rf h
  rw [pass2_ok ((diffOf prev cur).changed ++ (diffOf prev cur).new) g2 hanc2 hres2]

theorem run_step (prev cur : Observed) (d : Nat) (ledger : List Row)
    (hprev : (namesOf prev).Nodup) (hcur : (namesOf cur).Nodup)
    (hb : ∀ r ∈ ledger, r.from_date < d)
    (hcount : ∀ nm, openCount nm ledger = if nm ∈ namesOf prev then 1 else 0)
    (hsl : strictLatest ledger) :
    (∀ nm, openCount nm
        ((update_with_date ledger (mkGit cur) d (.ok (diffOf prev cur))).2.1)
      = if nm ∈ namesOf cur then 1 else 0)
    ∧ strictLatest ((update_with_date ledger (mkGit cur) d (.ok (diffOf prev cur))).2.1)
    ∧ (∀ r ∈ (update_with_date ledger (mkGit cur) d (.ok (diffOf prev cur))).2.1,
        r.from_date ≤ d) := by
  have hrcnd := rc_names_nodup prev cur hprev hcur
  have hcnnd := cn_names_nodup prev cur hcur
  have hrccount : ∀ rf ∈ (diffOf prev cur).removed ++ (diffOf prev cur).changed,
      openCount rf.name ledger = 1 := by
    intro rf h
    rw [hcount rf.name, if_pos (rc_names_subset_prev prev cur rf h)]
  obtain ⟨hc1, hsl1, hb1⟩ := closeRows_inv d
    ((diffOf prev cur).removed ++ (diffOf prev cur).changed) ledger
    hrcnd hrccount hsl hb
  have hres : ∀ rf ∈ (diffOf prev cur).changed ++ (diffOf prev cur).new,
      ((mkGit cur).resolve rf.fullname).isSome := by
    intro rf h
    obtain ⟨p, hp, hpe⟩ := cn_mem_cur prev cur rf h
    exact mkGit_resolve_isSome cur rf p hp hpe
  obtain ⟨tail, hopen, htnames, htprops⟩ := openRows_ok (mkGit cur) d
    ((diffOf prev cur).changed ++ (diffOf prev cur).new)
    (closeRows d ((diffOf prev cur).removed ++ (diffOf prev cur).changed) ledger) hres
  have hupd := update_run_ledger prev cur d ledger _ hres hopen
  rw [hupd]
  have htailcount : ∀ nm, openCount nm tail =
      if nm ∈ ((diffOf prev cur).changed ++ (diffOf prev cur).new).map Ref.name
      then 1 else 0 := by
    intro nm
    rw [openCount_all_open nm tail (fun row h => (htprops row h).2)
        (by rw [htnames]; exact hcnnd), htnames]
  have hnoclash : ∀ nm,
      nm ∈ ((diffOf prev cur).changed ++ (diffOf prev cur).new).map Ref.name →
      openCount nm
        (closeRows d ((diffOf prev cur).removed ++ (diffOf prev cur).changed) ledger)
        = 0 := by
    intro nm h
    rw [hc1 nm]
    by_cases hrcmem :
        nm ∈ ((diffOf prev cur).removed ++ (diffOf prev cur).changed).map Ref.name
    · rw [if_pos hrcmem]
    · rw [if_neg hrcmem, hcount nm, if_neg]
      intro hprevmem
      exact hrcmem (cn_prev_in_rc prev cur hcur nm h hprevmem)
  refine ⟨?_, ?_, ?_⟩
  · intro nm
    rw [openCount_append]
    by_cases hcn :
        nm ∈ ((diffOf prev cur).changed ++ (diffOf prev cur).new).map Ref.name
    · rw [hnoclash nm hcn, htailcount nm, if_pos hcn,
        if_pos (cn_names_subset_cur prev cur nm hcn)]
    · rw [htailcount nm, if_neg hcn, hc1 nm, Nat.add_zero]
      have hiff := not_cn_iff prev cur hprev nm hcn
      by_cases hrcmem :
          nm ∈ ((diffOf prev cur).removed ++ (diffOf prev cur).changed).map Ref.name
      · rw [if_pos hrcmem, if_neg]
        intro hcurmem
        exact (hiff.mpr hcurmem).2 hrcmem
      · rw [if_neg hrcmem, hcount nm]
        by_cases hprevmem : nm ∈ namesOf prev
        · rw [if_pos hprevmem, if_pos (hiff.mp ⟨hprevmem, hrcmem⟩)]
        · rw [if_neg hprevmem, if_neg]
          intro hcurmem
          exact hprevmem (hiff.mpr hcurmem).1
  · apply append_strictLatest _ tail d hsl1 hb1 htprops
      (by rw [htnames]; exact hcnnd)
    intro row hrow
    apply hnoclash row.name
    rw [← htnames]
    exact List.mem_map_of_mem Row.name hrow
  · intro r hr
    rcases List.mem_append.mp hr with h | h
    · exact Nat.le_of_lt (hb1 r h)
    · exact Nat.le_of_eq (htprops r h).1

theorem runSeq_invariant (runs : List (Observed × Nat)) (prev : Observed)
    (ledger : List Row)
    (hprev : (namesOf prev).Nodup)
    (hruns : ∀ p ∈ runs, (namesOf p.1).Nodup)
    (hdates : (runs.map Prod.snd).Pairwise (· < ·))
    (hb : ∀ r ∈ ledger, ∀ p ∈ runs, r.from_date < p.2)
    (hcount : ∀ nm, openCount nm ledger = if nm ∈ namesOf prev then 1 else 0)
    (hsl : strictLatest ledger) :
    ∀ nm, openCount nm (runSeq prev ledger runs) ≤ 1 := by
  induction runs generalizing prev ledger with
  | nil =>
    intro nm
    show openCount nm ledger ≤ 1
    rw [hcount nm]
    split
    · exact le_refl 1
    · exact Nat.zero_le 1
  | cons pr rest ih =>
    obtain ⟨cur, d⟩ := pr
    have hcur := hruns (cur, d) (List.mem_cons_self _ _)
    have hbd : ∀ r ∈ ledger, r.from_date < d :=
      fun r hr => hb r hr (cur, d) (List.mem_cons_self _ _)
    obtain ⟨hc2, hsl2, hb2⟩ := run_step prev cur d ledger hprev hcur hbd hcount hsl
    have hdates2 : (rest.map Prod.snd).Pairwise (· < ·) :=
      (List.pairwise_cons.mp hdates).2
    have hdlt : ∀ p ∈ rest, d < p.2 := by
      intro p hp
      exact (List.pairwise_cons.mp hdates).1 p.2 (List.mem_map_of_mem Prod.snd hp)
    exact ih cur ((update_with_date ledger (mkGit cur) d (.ok (diffOf prev cur))).2.1)
      hcur (fun p hp => hruns p (List.mem_cons_of_mem _ hp)) hdates2
      (fun r hr p hp => lt_of_le_of_lt (hb2 r hr) (hdlt p hp))
      hc2 hsl2

/-- C5 (counterexample): the claim says that starting from an empty ledger
no sequence of runs ever leaves more than one open row per name.  A single
run observing a branch named `x` and a tag named `x` — a legitimate remote
— yields two open rows for the name `x`, because the ledger keys rows by
bare name while references are identified by name plus kind. -/
theorem claim5_counterexample :
    openCount "x" (runSeq [] []
      [([(⟨"x", false⟩, "s1"), (⟨"x", true⟩, "s2")], 1)]) = 2 := by
  decide

/-- C5 (amended): starting from an empty ledger, for every sequence of runs
whose snapshots have pairwise distinct reference names (across kinds) and
whose timestamps are strictly increasing, no name ever has more than one
open row.  Both restrictions are forced by the code: same-named tag/branch
pairs insert two open rows (the counterexample), and non-monotone run dates
make the `ORDER BY from_date DESC LIMIT 1` update re-close an old row while
leaving the current open row untouched.  Intermediate states are covered
because every prefix of a conforming run sequence is itself conforming. -/
theorem claim5_amended (runs : List (Observed × Nat))
    (hnames : ∀ p ∈ runs, (namesOf p.1).Nodup)
    (hdates : (runs.map Prod.snd).Pairwise (· < ·)) :
    ∀ nm, openCount nm (runSeq [] [] runs) ≤ 1 :=
  runSeq_invariant runs [] [] List.nodup_nil hnames hdates
    (fun r hr => absurd hr (List.not_mem_nil r))
    (fun nm => by simp [openCount, namesOf])
    (fun r hr => absurd hr (List.not_mem_nil r))

/-- Witness instantiating C5's amended theorem on a two-run fast-forward
sequence with increasing dates. -/
theorem claim5_witness :
    openCount "master" (runSeq [] []
      [([(⟨"master", false⟩, "s1")], 1), ([(⟨"master", false⟩, "s2")], 2)]) ≤ 1 :=
  claim5_amended
    [([(⟨"master", false⟩, "s1")], 1), ([(⟨"master", false⟩, "s2")], 2)]
    (by decide) (by decide) "master"

end Doublegit
